import Mathlib

/-!
# Verification of the qilife File Reconciliation Engine

Shallow embedding of the core of the repository:

* `src/j_tools/e05_index_dups/je02_duplicate_file_cleaner.py`
  (duplicate scanner, classifier, keep-first resolution, quarantine + archive), and
* `src/tests/organize_project.py`
  (transactional file primitives, rollback journal, bulk layout reconciler), and
* `normalize_path` (which is `os.path.normpath(os.path.abspath(path))` on POSIX).

Modelling conventions, stated once:

* file contents are byte lists (`List Nat`); the SHA-256 digest of
  `get_file_hash` is modelled as the content itself, i.e. as a perfect
  (collision-free) fingerprint, the standard model of a cryptographic hash;
* Python exceptions that the source catches are modelled by `Option` results /
  explicit success flags; exceptional situations a pure model cannot produce
  (permission errors, races) do not arise;
* `os.walk` visits directories in an unspecified but deterministic listdir
  order; the model fixes that order to the storage order of the directory and
  file lists of the model filesystem.
-/

namespace QiLife

/-! ## Duplicate file cleaner (`je02_duplicate_file_cleaner.py`) -/

/-- A file as seen by the scanner's walk.
`depth` is the relative depth of the directory containing the file
(the `relative_depth` the source computes for `root` in `os.walk`).
`statOk` models `os.path.getsize` succeeding, `readable` models the file
being openable and readable to the end (`get_file_hash` success). -/
structure SFile where
  path : String
  depth : Nat
  content : List Nat
  statOk : Bool
  readable : Bool
deriving Repr, DecidableEq

/-- `get_file_size`: returns the size, or `-1` on `FileNotFoundError`. -/
def get_file_size (f : SFile) : Int :=
  if f.statOk then (f.content.length : Int) else -1

/-- `get_file_hash`: streams the file and returns its digest, or `None` if the
file cannot be opened or read (the `except Exception` branch).  The digest is
modelled as the byte content itself (perfect hash).  The function is total:
it never raises to its caller. -/
def get_file_hash (f : SFile) : Option (List Nat) :=
  if f.readable then some f.content else none

/-- `defaultdict(list)` append: `m[k].append(a)`, keeping first-occurrence key
order (Python dict insertion order). -/
def groupAppend {κ α : Type} [DecidableEq κ] :
    List (κ × List α) → κ → α → List (κ × List α)
  | [], k, a => [(k, [a])]
  | (k', l) :: rest, k, a =>
    if k' = k then (k', l ++ [a]) :: rest
    else (k', l) :: groupAppend rest k a

/-- Phase 1 of `find_duplicates`: walk up to `depth_limit`, skip files whose
size read fails (`file_size >= 0`), and bucket `size -> paths` (the model
buckets the whole `SFile` so that phase 2 can hash it). -/
def size_map (input : List SFile) (depth_limit : Nat) : List (Nat × List SFile) :=
  (input.filter (fun f => f.depth ≤ depth_limit && f.statOk)).foldl
    (fun m f => groupAppend m f.content.length f) []

/-- Size buckets with more than one entry (`potential_duplicates_by_size`). -/
def potential_duplicates_by_size (input : List SFile) (depth_limit : Nat) :
    List (Nat × List SFile) :=
  (size_map input depth_limit).filter (fun b => b.2.length > 1)

/-- Phase 2 of `find_duplicates`: hash every file of every surviving size
bucket; files whose hash fails are dropped (`if file_hash:` — a real hex
digest is never empty, so truthiness is `Option.isSome`); regroup by digest. -/
def hash_map (input : List SFile) (depth_limit : Nat) : List (List Nat × List String) :=
  (potential_duplicates_by_size input depth_limit).foldl
    (fun m b =>
      b.2.foldl
        (fun m f =>
          match get_file_hash f with
          | some h => groupAppend m h f.path
          | none => m) m) []

/-- `find_duplicates`: digest groups with at least two members. -/
def find_duplicates (input : List SFile) (depth_limit : Nat) :
    List (List Nat × List String) :=
  (hash_map input depth_limit).filter (fun g => g.2.length > 1)

/-- The scanner entry recorded for a path: the first input file carrying that
path (unique when the walked paths are distinct). -/
def entryFor (input : List SFile) (p : String) : Option SFile :=
  input.find? (fun f => f.path = p)

/-! ### Classifier (`is_numbered_duplicate`) -/

/-- `os.path.basename` (POSIX): the part after the last `/`. -/
def baseNameChars (l : List Char) : List Char :=
  (l.reverse.takeWhile (fun c => c ≠ '/')).reverse

/-- `os.path.splitext` on a slash-free name (the source always applies it to a
basename): split at the last dot, unless every character before that dot is
itself a dot (then there is no extension). -/
def splitextChars (l : List Char) : List Char × List Char :=
  let r := l.reverse
  let extRev := r.takeWhile (fun c => c ≠ '.')
  if extRev.length = r.length then (l, [])
  else
    let stemLen := l.length - extRev.length - 1
    let stem := l.take stemLen
    if stem.any (fun c => c ≠ '.') then (stem, l.drop stemLen) else (l, [])

/-- Does the whole string match `_\d+` (an underscore then one or more
digits)?  `\d` is modelled as ASCII digits. -/
def matchUnderscoreNum : List Char → Bool
  | '_' :: rest => rest ≠ [] && rest.all Char.isDigit
  | _ => false

/-- Does the whole string match `\s\(\d+\)` (a whitespace character, an open
parenthesis, one or more digits, a close parenthesis)? -/
def matchParenNum : List Char → Bool
  | c :: '(' :: rest =>
    c.isWhitespace &&
      (match rest.getLast? with
       | some ')' => rest.dropLast ≠ [] && rest.dropLast.all Char.isDigit
       | _ => false)
  | _ => false

/-- `re.sub(r'(_\d+|\s\(\d+\))$', '', name)`: remove the leftmost suffix that
entirely matches one of the two alternatives and reaches the end of the
string (the `$` anchor forces the match to cover a complete suffix). -/
def strip_counter : List Char → List Char
  | [] => []
  | c :: rest =>
    if matchUnderscoreNum (c :: rest) || matchParenNum (c :: rest) then []
    else c :: strip_counter rest

/-- `is_numbered_duplicate(file_path1, file_path2)`. -/
def is_numbered_duplicate (p1 p2 : String) : Bool :=
  let s1 := splitextChars (baseNameChars p1.data)
  let s2 := splitextChars (baseNameChars p2.data)
  if s1.2 ≠ s2.2 then false
  else strip_counter s1.1 = strip_counter s2.1 && s1.1 ≠ s2.1

/-- `all(f(l[i], l[j]) for i in range(len(l)) for j in range(i+1, len(l)))`. -/
def allPairs {α : Type} (f : α → α → Bool) : List α → Bool
  | [] => true
  | x :: xs => xs.all (f x) && allPairs f xs

/-- The `numbered_duplicates` flag `handle_duplicates` computes for a group:
`True` (the group is presented as numbered duplicates) exactly when every
pair in the group is a numbered-duplicate pair. -/
def numbered_duplicates_group (files : List String) : Bool :=
  allPairs is_numbered_duplicate files

/-- The pair condition in the words of the specification: after stripping a
single trailing counter suffix from each base filename (extension excluded)
the stripped names are equal, the original full (base) names differ, and the
extensions are equal. -/
def specNumberedPair (a b : String) : Prop :=
  strip_counter (splitextChars (baseNameChars a.data)).1 =
      strip_counter (splitextChars (baseNameChars b.data)).1 ∧
  baseNameChars a.data ≠ baseNameChars b.data ∧
  (splitextChars (baseNameChars a.data)).2 = (splitextChars (baseNameChars b.data)).2

/-! ### Keep-first resolution (`handle_duplicates`, `confirmation == 'yes'`) -/

/-- The `files_to_move` list built in the `yes` branch: for every group with
more than one member, all members except the first (`files[1:]`). -/
def files_to_move_yes (duplicates : List (List Nat × List String)) : List String :=
  duplicates.foldl (fun acc g => if g.2.length > 1 then acc ++ g.2.drop 1 else acc) []

/-! ## Layout reconciler (`organize_project.py`)

Paths are component lists relative to `ROOT` (`[]` is `ROOT` itself), so the
`os.path.relpath(..., ROOT)` applied before journalling is the identity.  A
filesystem is a finite listing of files (path, bytes) and of directories; the
storage order of the two lists is the model's `os.listdir` order. -/

abbrev Path := List String
abbrev Content := List Nat

structure FS where
  files : List (Path × Content)
  dirs : List Path
deriving Repr, DecidableEq

/-- The action descriptions the run logs — each has a real form ("Moved: ...")
and a dry-run form ("[DRY RUN] Would move: ..."), with identical content. -/
inductive Action
  | mkdir (d : Path)          -- "Created directory" inside move / create-empty-file
  | mkdirExpected (d : Path)  -- "Created expected directory" (step 1)
  | move (src dst : Path)
  | deleteF (p : Path)
  | createF (p : Path)
  | rmdir (d : Path)
deriving Repr, DecidableEq

/-- A `rollback_data` entry.  `mv p1 p2` is the CSV row `MOVE,p1,p2` (undo by
moving `p1` back to `p2`); `del`, `create`, `createDir` are the rows
`DELETE`/`CREATE`/`CREATE_DIR`; `deleteDir` is the `DELETE_DIR` entry of the
(dead) expected-directory branch, which `generate_rollback_file` would drop. -/
inductive JEntry
  | mv (p1 p2 : Path)
  | del (p : Path)
  | create (p : Path)
  | createDir (p : Path)
  | deleteDir (p : Path)
deriving Repr, DecidableEq

def lookupFile (fs : FS) (p : Path) : Option Content :=
  (fs.files.find? (fun e => e.1 = p)).map (·.2)

def existsFile (fs : FS) (p : Path) : Bool :=
  (lookupFile fs p).isSome

def existsDir (fs : FS) (d : Path) : Bool :=
  d = [] || d ∈ fs.dirs

/-- `os.path.exists`: true for a file or a directory. -/
def existsPath (fs : FS) (p : Path) : Bool :=
  existsFile fs p || existsDir fs p

def eraseFile (fs : FS) (p : Path) : FS :=
  { fs with files := fs.files.filter (fun e => ¬ e.1 = p) }

/-- Writing a file: replaces any file already at `p` (both `shutil.move` onto
an existing file and `open(p, 'w')` overwrite). -/
def insertFile (fs : FS) (p : Path) (c : Content) : FS :=
  { fs with files := fs.files.filter (fun e => ¬ e.1 = p) ++ [(p, c)] }

def pathPrefixes (d : Path) : List Path :=
  (List.range d.length).map (fun i => d.take (i + 1))

/-- `os.makedirs(d, exist_ok=True)`: create `d` and all missing ancestors. -/
def mkdirs (fs : FS) (d : Path) : FS :=
  { fs with dirs := fs.dirs ++ (pathPrefixes d).filter (fun q => ¬ existsDir fs q) }

/-! ### The transactional primitives.  Each returns the new filesystem, the
action descriptions it logged, and the journal entries it appended.  Failures
the source catches (`FileNotFoundError` on a missing source) log a warning,
append nothing, and leave the filesystem unchanged. -/

/-- `move_file(src_path, dest_path, dry_run)`. -/
def move_file (dry : Bool) (src dst : Path) (fs : FS) :
    FS × List Action × List JEntry :=
  let destDir := dst.dropLast
  let step1 :=
    if ¬ existsPath fs destDir then
      if dry then (fs, [Action.mkdir destDir])
      else (mkdirs fs destDir, [Action.mkdir destDir])
    else (fs, [])
  if dry then (step1.1, step1.2 ++ [Action.move src dst], [])
  else
    match lookupFile step1.1 src with
    | some c =>
      (insertFile (eraseFile step1.1 src) dst c,
       step1.2 ++ [Action.move src dst], [JEntry.mv dst src])
    | none => (step1.1, step1.2, [])

/-- `delete_file(file_path, dry_run)`: `os.remove`, in place. -/
def delete_file (dry : Bool) (p : Path) (fs : FS) :
    FS × List Action × List JEntry :=
  if dry then (fs, [Action.deleteF p], [])
  else
    match lookupFile fs p with
    | some _ => (eraseFile fs p, [Action.deleteF p], [JEntry.create p])
    | none => (fs, [], [])

/-- `create_empty_file(file_path, dry_run)`: `open(p, 'w')`. -/
def create_empty_file (dry : Bool) (p : Path) (fs : FS) :
    FS × List Action × List JEntry :=
  let destDir := p.dropLast
  let step1 :=
    if ¬ existsPath fs destDir then
      if dry then (fs, [Action.mkdir destDir])
      else (mkdirs fs destDir, [Action.mkdir destDir])
    else (fs, [])
  if dry then (step1.1, step1.2 ++ [Action.createF p], [])
  else (insertFile step1.1 p [], step1.2 ++ [Action.createF p], [JEntry.del p])

/-! ### `os.walk` over the model filesystem -/

def childrenOf (fs : FS) (d : Path) : List Path :=
  fs.dirs.filter (fun q => q.dropLast = d && ¬ q = [])

def filesInDir (fs : FS) (d : Path) : List (Path × Content) :=
  fs.files.filter (fun e => e.1.dropLast = d)

/-- Enough recursion depth to reach every directory of `fs` from the root. -/
def walkFuel (fs : FS) : Nat :=
  fs.dirs.foldl (fun n d => max n d.length) 0 + 1

def preWalk (fs : FS) : Nat → Path → List Path
  | 0, d => [d]
  | n + 1, d => d :: (childrenOf fs d).flatMap (preWalk fs n)

def postWalk (fs : FS) : Nat → Path → List Path
  | 0, d => [d]
  | n + 1, d => (childrenOf fs d).flatMap (postWalk fs n) ++ [d]

/-- `os.walk(ROOT)` top-down: directory paths in depth-first preorder. -/
def walk_dirs (fs : FS) : List Path := preWalk fs (walkFuel fs) []

/-- `os.walk(ROOT, topdown=False)`: depth-first postorder. -/
def walk_dirs_bottomup (fs : FS) : List Path := postWalk fs (walkFuel fs) []

/-- All file paths, in walk order. -/
def walk_files (fs : FS) : List Path :=
  (walk_dirs fs).flatMap (fun d => (filesInDir fs d).map (·.1))

/-- `find_all_files_in_root(filename, ROOT)`: every file whose basename is
`filename`, in walk order. -/
def find_all_files_in_root (filename : String) (fs : FS) : List Path :=
  (walk_files fs).filter (fun p => p.getLast? = some filename)

/-! ### The target layout (`structure`) -/

/-- `structure`: destination folder → (subdirectory, or `""` → filenames). -/
abbrev Layout := List (String × List (String × List String))

def layoutTriples (layout : Layout) : List (String × String × String) :=
  layout.flatMap (fun fo => fo.2.flatMap (fun sd => sd.2.map (fun fn => (fo.1, sd.1, fn))))

def canonicalPath (folder subdir filename : String) : Path :=
  if subdir = "" then [folder, filename] else [folder, subdir, filename]

def expectedDirsRaw (layout : Layout) : List Path :=
  [[]] ++ layout.flatMap (fun fo =>
    [[fo.1]] ++ fo.2.flatMap (fun sd => if sd.1 = "" then [] else [[fo.1, sd.1]]))

/-- `expected_directory_paths` (a Python set: membership only, deduplicated). -/
def expected_directory_paths (layout : Layout) : List Path :=
  (expectedDirsRaw layout).dedup

/-- `defined_file_targets` (a Python set). -/
def defined_file_targets (layout : Layout) : List Path :=
  ((layoutTriples layout).map (fun t => canonicalPath t.1 t.2.1 t.2.2)).dedup

/-- Lexicographic comparison of rendered path strings, the order
`sorted(list(expected_directory_paths))` uses (all paths share the absolute
`ROOT` prefix, so comparing the relative renderings is the same order). -/
def charListLe : List Char → List Char → Bool
  | [], _ => true
  | _ :: _, [] => false
  | a :: as, b :: bs => if a = b then charListLe as bs else decide (a < b)

def pathLe (a b : Path) : Bool :=
  charListLe (String.intercalate "/" a).data (String.intercalate "/" b).data

/-- Stable insertion into an ascending list (a later element goes after the
elements already placed that compare ≤ to it). -/
def insertSorted {α : Type} (le : α → α → Bool) (a : α) : List α → List α
  | [] => [a]
  | b :: t => if le b a then b :: insertSorted le a t else a :: b :: t

/-- Stable ascending sort, the behaviour of Python's `sorted`. -/
def sortByPy {α : Type} (le : α → α → Bool) (l : List α) : List α :=
  l.foldl (fun acc a => insertSorted le a acc) []

def sortedExpectedDirs (layout : Layout) : List Path :=
  sortByPy pathLe (expected_directory_paths layout)

/-! ### The four steps of `organize_project` -/

/-- Run state: filesystem, logged action descriptions, `rollback_data`. -/
structure OrgSt where
  fs : FS
  acts : List Action
  journal : List JEntry
deriving Repr, DecidableEq

def applyOp (st : OrgSt) (f : FS → FS × List Action × List JEntry) : OrgSt :=
  let r := f st.fs
  { fs := r.1, acts := st.acts ++ r.2.1, journal := st.journal ++ r.2.2 }

/-- One expected directory of step 1.  The source guards the `DELETE_DIR`
journal entry by `if dir_path not in expected_directory_paths`, with
`dir_path` drawn from `expected_directory_paths` itself (the comment in the
source notes the check is redundant) — the guard is embedded literally. -/
def orgStep1Item (dry : Bool) (layout : Layout) (st : OrgSt) (d : Path) : OrgSt :=
  if ¬ existsPath st.fs d then
    if dry then { st with acts := st.acts ++ [Action.mkdirExpected d] }
    else
      { fs := mkdirs st.fs d,
        acts := st.acts ++ [Action.mkdirExpected d],
        journal := st.journal ++
          (if ¬ d ∈ expected_directory_paths layout
           then [JEntry.deleteDir d] else []) }
  else st

/-- Step 1: ensure every expected directory exists, in sorted order. -/
def orgStep1 (dry : Bool) (layout : Layout) (st : OrgSt) : OrgSt :=
  (sortedExpectedDirs layout).foldl (orgStep1Item dry layout) st

/-- One declared file of step 2: find every instance, keep / move / create
at the canonical path, and delete the remaining instances as duplicates. -/
def orgStep2Item (dry : Bool) (acc : OrgSt × List Path)
    (t : String × String × String) : OrgSt × List Path :=
  let canonical := canonicalPath t.1 t.2.1 t.2.2
  if canonical ∈ acc.2 then acc
  else
    let st := acc.1
    let processed := acc.2 ++ [canonical]
    let locs := find_all_files_in_root t.2.2 st.fs
    if canonical ∈ locs then
      let rest := locs.erase canonical
      (rest.foldl (fun st p => applyOp st (delete_file dry p)) st, processed)
    else
      match locs with
      | [] => (applyOp st (create_empty_file dry canonical), processed)
      | src :: rest =>
        let st := applyOp st (move_file dry src canonical)
        (rest.foldl (fun st p => applyOp st (delete_file dry p)) st, processed)

/-- Step 2: process every declared file, skipping canonical targets already
processed. -/
def orgStep2 (dry : Bool) (layout : Layout) (st : OrgSt) : OrgSt :=
  ((layoutTriples layout).foldl (orgStep2Item dry) (st, ([] : List Path))).1

def script_name : String := "organize_project.py"
def log_file_name : String := "organize_log.txt"
def rollback_csv_name : String := "rollback_log.csv"

/-- One walked file of step 3: delete it unless it is a defined target, the
script itself, or one of the script's log artifacts. -/
def orgStep3Item (dry : Bool) (layout : Layout) (st' : OrgSt) (p : Path) : OrgSt :=
  if p ∈ defined_file_targets layout then st'
  else
    match p.getLast? with
    | some b =>
      if b = script_name || b = log_file_name || b = rollback_csv_name then st'
      else applyOp st' (delete_file dry p)
    | none => st'

/-- Step 3: snapshot all files, then delete every unlisted one. -/
def orgStep3 (dry : Bool) (layout : Layout) (st : OrgSt) : OrgSt :=
  (walk_files st.fs).foldl (orgStep3Item dry layout) st

/-- Step 4: `delete_empty_directories`.  The bottom-up walk's directory and
file listings are the ones `os.walk(topdown=False)` captured before any
removal, so a directory emptied only by this very pass still looks non-empty;
the model snapshots the whole walk at entry, which yields the same
behaviour because a removal only changes the listing of the (already
captured) parent. -/
def orgStep4Item (dry : Bool) (layout : Layout) (st' : OrgSt)
    (e : Path × List Path × List (Path × Content)) : OrgSt :=
  if e.1 = [] then st'
  else if e.2.1 = [] && e.2.2 = [] && ¬ e.1 ∈ expected_directory_paths layout then
    if dry then { st' with acts := st'.acts ++ [Action.rmdir e.1] }
    else
      { fs := { st'.fs with dirs := st'.fs.dirs.filter (fun q => ¬ q = e.1) },
        acts := st'.acts ++ [Action.rmdir e.1],
        journal := st'.journal ++ [JEntry.createDir e.1] }
  else st'

def orgStep4 (dry : Bool) (layout : Layout) (st : OrgSt) : OrgSt :=
  ((walk_dirs_bottomup st.fs).map
    (fun d => (d, childrenOf st.fs d, filesInDir st.fs d))).foldl
    (orgStep4Item dry layout) st

/-- `organize_project(dry_run)`: the four steps in order, starting from an
empty action log and an empty journal. -/
def organize_project (layout : Layout) (dry : Bool) (fs : FS) : OrgSt :=
  orgStep4 dry layout (orgStep3 dry layout (orgStep2 dry layout
    (orgStep1 dry layout ⟨fs, [], []⟩)))

/-! ### Replaying the rollback journal

`generate_rollback_file` documents the undo semantics of each row:
`MOVE` — move `path1` back to `path2`; `DELETE` — delete `path1`;
`CREATE` — create `path1` as an *empty* file; `CREATE_DIR` — recreate the
directory `path1`.  Replay applies the journal in reverse chronological
order. -/

def apply_rollback_entry (fs : FS) : JEntry → FS
  | .mv p1 p2 =>
    match lookupFile fs p1 with
    | some c => insertFile (eraseFile fs p1) p2 c
    | none => fs
  | .del p => eraseFile fs p
  | .create p => insertFile fs p []
  | .createDir p => mkdirs fs p
  | .deleteDir p => { fs with dirs := fs.dirs.filter (fun q => ¬ q = p) }

def replay_rollback (fs : FS) (journal : List JEntry) : FS :=
  journal.reverse.foldl apply_rollback_entry fs

/-! ### Sequences of primitive operations

The forward operations a run performs, at the granularity of the
transactional file operator: the three file primitives above, the step-1
expected-directory creation (which journals nothing — its `DELETE_DIR`
guard is vacuous), and the step-4 empty-directory removal. -/

inductive Op
  | mvOp (src dst : Path)
  | delOp (p : Path)
  | mkfileOp (p : Path)
  | mkdirOp (d : Path)
  | rmdirOp (d : Path)
deriving Repr, DecidableEq

def execOp (fs : FS) : Op → FS × List JEntry
  | .mvOp src dst => let r := move_file false src dst fs; (r.1, r.2.2)
  | .delOp p => let r := delete_file false p fs; (r.1, r.2.2)
  | .mkfileOp p => let r := create_empty_file false p fs; (r.1, r.2.2)
  | .mkdirOp d => (mkdirs fs d, [])
  | .rmdirOp d =>
    ({ fs with dirs := fs.dirs.filter (fun q => ¬ q = d) }, [JEntry.createDir d])

def execOps (fs : FS) : List Op → FS × List JEntry
  | [] => (fs, [])
  | o :: rest =>
    let r := execOp fs o
    let r2 := execOps r.1 rest
    (r2.1, r.2 ++ r2.2)

/-- The operation is performed against a state where it does not clobber:
a move finds its source and does not overwrite an existing destination, a
create targets a path not already holding a file. -/
def safeOp (fs : FS) : Op → Bool
  | .mvOp src dst => existsFile fs src && !existsFile fs dst
  | .delOp _ => true
  | .mkfileOp p => !existsFile fs p
  | .mkdirOp _ => true
  | .rmdirOp _ => true

def safeOps (fs : FS) : List Op → Bool
  | [] => true
  | o :: rest => safeOp fs o && safeOps (execOp fs o).1 rest

/-- The replayed tree restores the original one up to emptied contents:
same set of file paths, and each path holds either its original bytes or is
an empty recreation of a deleted file. -/
def restoresUpToEmpty (fs₀ g : FS) : Prop :=
  (∀ p, existsFile g p = existsFile fs₀ p) ∧
  (∀ p, lookupFile g p = lookupFile fs₀ p ∨ lookupFile g p = some [])

/-! ### Quarantine and archive (`handle_duplicates`, move phase)

After confirmation, each selected duplicate is moved into the
`duplicates_pending_deletion_<timestamp>` folder under a collision-free name
and then written into the backup zip under its path relative to the root
(our paths are already root-relative). -/

/-- The candidate destination names the `while os.path.exists` loop probes:
the plain basename first, then `name_<counter><ext>` for counter 1, 2, …
(`splitext` is reapplied to the original basename each iteration). -/
def quarantineCandidate (qdir : Path) (base : String) : Nat → Path
  | 0 => qdir ++ [base]
  | n + 1 =>
    let s := splitextChars base.data
    qdir ++ [String.mk s.1 ++ "_" ++ toString (n + 1) ++ String.mk s.2]

/-- The first probe the loop accepts.  `fuel` bounds the unbounded `while`;
the loop itself terminates because only finitely many names are taken. -/
def freeQuarantineName (fs : FS) (qdir : Path) (base : String) (fuel : Nat) :
    Option Path :=
  (List.range fuel).findSome? (fun n =>
    let cand := quarantineCandidate qdir base n
    if existsPath fs cand then none else some cand)

/-- Quarantine-move state: filesystem, backup-zip contents
(arcname × bytes), `moved_count`. -/
structure ArchSt where
  fs : FS
  zip : List (Path × Content)
  movedCount : Nat
deriving Repr, DecidableEq

/-- One iteration of the move loop: pick a free quarantine name, move the
file there, append it to the backup zip.  A `shutil.move` failure (missing
source) is caught: no zip write, no count, filesystem unchanged. -/
def processQuarantineMove (qdir : Path) (fuel : Nat) (st : ArchSt) (f : Path) :
    ArchSt :=
  match f.getLast? with
  | none => st
  | some base =>
    match freeQuarantineName st.fs qdir base fuel with
    | none => st
    | some newPath =>
      match lookupFile st.fs f with
      | some c =>
        { fs := insertFile (eraseFile st.fs f) newPath c,
          zip := st.zip ++ [(newPath, c)],
          movedCount := st.movedCount + 1 }
      | none => st

/-- The whole move phase over `files_to_move`. -/
def quarantine_moves (qdir : Path) (fuel : Nat) (fs : FS) (files : List Path) :
    ArchSt :=
  files.foldl (processQuarantineMove qdir fuel) ⟨fs, [], 0⟩

/-! ## `normalize_path` (`organize_project.py`, line 62)

`normalize_path(p) = os.path.normpath(os.path.abspath(p))`, modelled for
POSIX over character lists. -/

def splitSlash : List Char → List (List Char)
  | [] => [[]]
  | c :: rest =>
    let ss := splitSlash rest
    if c = '/' then [] :: ss
    else
      match ss with
      | [] => [[c]]
      | s :: tl => (c :: s) :: tl

/-- `'/'.join(comps)`. -/
def joinSlash : List (List Char) → List Char
  | [] => []
  | [c] => c
  | c :: rest => c ++ '/' :: joinSlash rest

/-- A component `normpath` leaves in an absolute path: nonempty, not `.`,
not `..`, and slash-free. -/
def CleanAbs (c : List Char) : Prop :=
  c ≠ [] ∧ c ≠ ['.'] ∧ c ≠ ['.', '.'] ∧ '/' ∉ c

/-- POSIX `normpath` keeps one leading slash, or exactly two (two leading
slashes are special in POSIX), but collapses three or more to one. -/
def countInitSlashes (s : List Char) : Nat :=
  if s.take 2 = ['/', '/'] ∧ ¬ s.take 3 = ['/', '/', '/'] then 2
  else if s.take 1 = ['/'] then 1 else 0

/-- One component step of `normpath`'s main loop. -/
def npStep (k : Nat) (acc : List (List Char)) (comp : List Char) :
    List (List Char) :=
  if comp = [] ∨ comp = ['.'] then acc
  else if ¬ comp = ['.', '.'] ∨ (k = 0 ∧ acc = []) ∨ acc.getLast? = some ['.', '.'] then
    acc ++ [comp]
  else if ¬ acc = [] then acc.dropLast
  else acc

/-- `posixpath.normpath`. -/
def normpathChars (s : List Char) : List Char :=
  if s = [] then ['.']
  else
    let k := countInitSlashes s
    let comps := (splitSlash s).foldl (npStep k) []
    let out := List.replicate k '/' ++ joinSlash comps
    if out = [] then ['.'] else out

def isabsChars (s : List Char) : Bool :=
  s.take 1 = ['/']

/-- `posixpath.join(a, b)` for two operands. -/
def joinPathChars (a b : List Char) : List Char :=
  if isabsChars b then b
  else if a = [] ∨ a.getLast? = some '/' then a ++ b
  else a ++ '/' :: b

/-- `posixpath.abspath`, with the current working directory explicit. -/
def abspathChars (cwd s : List Char) : List Char :=
  if isabsChars s then normpathChars s
  else normpathChars (joinPathChars cwd s)

/-- `normalize_path(path) = normpath(abspath(path))`. -/
def normalize_path (cwd s : List Char) : List Char :=
  normpathChars (abspathChars cwd s)

/-! ## Concrete run used by the counterexamples

Layout: the single declaration `a/f.txt`.  Actual tree: directory `b`
holding `b/f.txt` (bytes `[7]`) and the unlisted file `b/g.txt`
(bytes `[5]`). -/

def cexLayout : Layout := [("a", [("", ["f.txt"])])]

def cexFS : FS := ⟨[(["b", "f.txt"], [7]), (["b", "g.txt"], [5])], [["b"]]⟩

def cexReal : OrgSt := organize_project cexLayout false cexFS

def cexDry : OrgSt := organize_project cexLayout true cexFS

def cexReplayed : FS := replay_rollback cexReal.fs cexReal.journal

/-! ## Inputs used by the witnesses -/

def wInput : List SFile :=
  [⟨"x/a.txt", 1, [1, 2], true, true⟩,
   ⟨"x/b.txt", 1, [1, 2], true, true⟩,
   ⟨"x/c.txt", 1, [1, 2], true, false⟩]

def wUnreadable : SFile := ⟨"x/c.txt", 1, [1, 2], true, false⟩

def wDups : List (List Nat × List String) := [([1], ["a", "b", "c"]), ([2], ["d"])]

def wFS : FS := ⟨[(["a"], [1]), (["b"], [2])], []⟩

def wOps : List Op :=
  [Op.mkdirOp ["d"], Op.mvOp ["a"] ["d", "a"], Op.delOp ["b"],
   Op.mkfileOp ["c"], Op.rmdirOp ["e"]]

/-! # Theorems -/

/-! ## Classifier -/

theorem splitext_concat (l : List Char) :
    (splitextChars l).1 ++ (splitextChars l).2 = l := by
  simp only [splitextChars]
  split
  · simp
  · split
    · exact List.take_append_drop _ l
    · simp

theorem allPairs_iff_pairwise {α : Type} (f : α → α → Bool) (l : List α) :
    allPairs f l = true ↔ l.Pairwise (fun a b => f a b = true) := by
  induction l with
  | nil => simp [allPairs]
  | cons x xs ih =>
    simp [allPairs, Bool.and_eq_true, List.all_eq_true, ih, List.pairwise_cons]

theorem is_numbered_duplicate_iff (a b : String) :
    is_numbered_duplicate a b = true ↔ specNumberedPair a b := by
  simp only [is_numbered_duplicate, specNumberedPair]
  split
  · rename_i hne
    constructor
    · intro h
      exact absurd h (by simp)
    · rintro ⟨_, _, hext⟩
      exact absurd hext hne
  · rename_i hnn
    rw [not_not] at hnn
    simp only [Bool.and_eq_true, decide_eq_true_eq]
    constructor
    · rintro ⟨h1, h2⟩
      refine ⟨h1, ?_, hnn⟩
      intro hb
      apply h2
      have := congrArg (fun l => (splitextChars l).1) hb
      simpa using this
    · rintro ⟨h1, h2, _⟩
      refine ⟨h1, ?_⟩
      intro hs
      apply h2
      have ha := splitext_concat (baseNameChars a.data)
      have hb := splitext_concat (baseNameChars b.data)
      rw [← ha, ← hb, hs, hnn]

/-- C7.  Classifier correctness: a duplicate group is presented as
`Numbered` iff every pair of members satisfies the strip-the-counter-suffix
condition — equal stripped stems, different original base names, equal
extensions — and the two concrete groups of the specification classify as
`Numbered` and `Suspect` respectively. -/
theorem classifier_correctness :
    (∀ files : List String,
      numbered_duplicates_group files = true ↔ files.Pairwise specNumberedPair) ∧
    numbered_duplicates_group ["report.txt", "report_1.txt", "report (2).txt"] = true ∧
    numbered_duplicates_group ["report.txt", "summary.txt"] = false := by
  refine ⟨fun files => ?_, by decide, by decide⟩
  rw [numbered_duplicates_group, allPairs_iff_pairwise]
  exact ⟨fun h => h.imp (fun hab => (is_numbered_duplicate_iff _ _).1 hab),
         fun h => h.imp (fun hab => (is_numbered_duplicate_iff _ _).2 hab)⟩

/-! ## Scanner invariants -/

theorem groupAppend_forall {κ α : Type} [DecidableEq κ] (P : κ → α → Prop)
    (m : List (κ × List α)) (k : κ) (a : α) (ha : P k a) :
    (∀ b ∈ m, ∀ x ∈ b.2, P b.1 x) →
    ∀ b ∈ groupAppend m k a, ∀ x ∈ b.2, P b.1 x := by
  induction m with
  | nil =>
    intro _ b hb x hx
    simp only [groupAppend, List.mem_singleton] at hb
    subst hb
    simp only [List.mem_singleton] at hx
    subst hx
    exact ha
  | cons e t ih =>
    intro hm b hb x hx
    obtain ⟨k', l⟩ := e
    simp only [groupAppend] at hb
    by_cases hk : k' = k
    · rw [if_pos hk] at hb
      rcases List.mem_cons.1 hb with h | h
      · subst h
        rcases List.mem_append.1 hx with h2 | h2
        · exact hm (k', l) (List.mem_cons_self _ _) x h2
        · simp only [List.mem_singleton] at h2
          subst h2
          rw [hk] at *
          exact ha
      · exact hm b (List.mem_cons_of_mem _ h) x hx
    · rw [if_neg hk] at hb
      rcases List.mem_cons.1 hb with h | h
      · subst h
        exact hm (k', l) (List.mem_cons_self _ _) x hx
      · exact ih (fun b hb => hm b (List.mem_cons_of_mem _ hb)) b h x hx

theorem sizeFold_forall (P : Nat → SFile → Prop) (l : List SFile) :
    ∀ (m : List (Nat × List SFile)),
      (∀ b ∈ m, ∀ f ∈ b.2, P b.1 f) →
      (∀ f ∈ l, P f.content.length f) →
      ∀ b ∈ l.foldl (fun m f => groupAppend m f.content.length f) m,
        ∀ f ∈ b.2, P b.1 f := by
  induction l with
  | nil =>
    intro m hm _
    simpa using hm
  | cons f t ih =>
    intro m hm hl
    simp only [List.foldl_cons]
    exact ih _
      (groupAppend_forall P m _ f (hl f (List.mem_cons_self _ _)) hm)
      (fun g hg => hl g (List.mem_cons_of_mem _ hg))

theorem size_map_forall (input : List SFile) (limit : Nat) :
    ∀ b ∈ size_map input limit, ∀ f ∈ b.2,
      f ∈ input ∧ f.statOk = true ∧ f.content.length = b.1 := by
  intro b hb f hf
  refine sizeFold_forall
    (fun s f => f ∈ input ∧ f.statOk = true ∧ f.content.length = s)
    (input.filter (fun f => f.depth ≤ limit && f.statOk)) [] (by simp) ?_ b hb f hf
  intro g hg
  have := List.mem_filter.1 hg
  refine ⟨this.1, ?_, rfl⟩
  have h2 := this.2
  rw [Bool.and_eq_true] at h2
  exact h2.2

/-- The property every member of a digest group has: it comes from the input,
was readable, and its content is the group digest (taken with a successful
size read, since hashing is only attempted inside a size bucket). -/
def hashedFrom (input : List SFile) (h : List Nat) (p : String) : Prop :=
  ∃ f, f ∈ input ∧ f.path = p ∧ f.statOk = true ∧ f.readable = true ∧ f.content = h

theorem hashFoldFile_forall (input : List SFile) (fl : List SFile) :
    ∀ (m : List (List Nat × List String)),
      (∀ b ∈ m, ∀ p ∈ b.2, hashedFrom input b.1 p) →
      (∀ f ∈ fl, f ∈ input ∧ f.statOk = true) →
      ∀ b ∈ fl.foldl
          (fun m f =>
            match get_file_hash f with
            | some h => groupAppend m h f.path
            | none => m) m,
        ∀ p ∈ b.2, hashedFrom input b.1 p := by
  induction fl with
  | nil =>
    intro m hm _
    simpa using hm
  | cons f t ih =>
    intro m hm hfl
    simp only [List.foldl_cons]
    have hf := hfl f (List.mem_cons_self _ _)
    have htail : ∀ g ∈ t, g ∈ input ∧ g.statOk = true :=
      fun g hg => hfl g (List.mem_cons_of_mem _ hg)
    rcases hr : get_file_hash f with _ | h
    · exact ih m hm htail
    · refine ih _ (groupAppend_forall _ m h f.path ?_ hm) htail
      rw [get_file_hash] at hr
      by_cases hread : f.readable = true
      · rw [if_pos hread] at hr
        exact ⟨f, hf.1, rfl, hf.2, hread, by injection hr⟩
      · rw [if_neg hread] at hr
        cases hr

theorem hashFoldBuckets_forall (input : List SFile)
    (bl : List (Nat × List SFile)) :
    ∀ (m : List (List Nat × List String)),
      (∀ b ∈ m, ∀ p ∈ b.2, hashedFrom input b.1 p) →
      (∀ bkt ∈ bl, ∀ f ∈ bkt.2, f ∈ input ∧ f.statOk = true) →
      ∀ b ∈ bl.foldl
          (fun m bkt =>
            bkt.2.foldl
              (fun m f =>
                match get_file_hash f with
                | some h => groupAppend m h f.path
                | none => m) m) m,
        ∀ p ∈ b.2, hashedFrom input b.1 p := by
  induction bl with
  | nil =>
    intro m hm _
    simpa using hm
  | cons bkt rest ih =>
    intro m hm hbl
    simp only [List.foldl_cons]
    exact ih _
      (hashFoldFile_forall input bkt.2 m hm
        (fun f hf => hbl bkt (List.mem_cons_self _ _) f hf))
      (fun b hb => hbl b (List.mem_cons_of_mem _ hb))

theorem hash_map_forall (input : List SFile) (limit : Nat) :
    ∀ b ∈ hash_map input limit, ∀ p ∈ b.2, hashedFrom input b.1 p := by
  rw [hash_map]
  refine hashFoldBuckets_forall input _ [] (by simp) ?_
  intro bkt hbkt f hf
  have hb := List.mem_filter.1 hbkt
  have := size_map_forall input limit bkt hb.1 f hf
  exact ⟨this.1, this.2.1⟩

/-- With distinct walked paths, the first entry found for a path is the only
one. -/
theorem entryFor_eq_of_mem (input : List SFile)
    (hnd : (input.map SFile.path).Nodup) (f : SFile) (hf : f ∈ input) :
    entryFor input f.path = some f := by
  induction input with
  | nil => cases hf
  | cons g t ih =>
    rw [List.map_cons, List.nodup_cons] at hnd
    by_cases hg : g.path = f.path
    · have hfg : f = g := by
        rcases List.mem_cons.1 hf with h | h
        · exact h
        · exact absurd (hg ▸ List.mem_map_of_mem SFile.path h) hnd.1
      rw [entryFor, List.find?_cons_of_pos _ (by simp [hg])]
      rw [hfg]
    · have hft : f ∈ t := by
        rcases List.mem_cons.1 hf with h | h
        · exact absurd (h ▸ rfl) hg
        · exact h
      rw [entryFor, List.find?_cons_of_neg _ (by simp [hg])]
      exact ih hnd.2 hft

/-- Two input entries sharing a path are the same entry when paths are
distinct. -/
theorem path_inj (input : List SFile) (hnd : (input.map SFile.path).Nodup)
    {f g : SFile} (hf : f ∈ input) (hg : g ∈ input) (h : f.path = g.path) :
    f = g :=
  List.inj_on_of_nodup_map hnd hf hg h

/-- C4.  Scanner soundness: every group `find_duplicates` returns has at
least two paths, and every member's (unique) entry has the group digest and
the size the digest determines — so every pair of members agrees on both
digest and size. -/
theorem scanner_soundness (input : List SFile) (limit : Nat)
    (hnd : (input.map SFile.path).Nodup) :
    ∀ g ∈ find_duplicates input limit,
      2 ≤ g.2.length ∧
      ∀ p ∈ g.2, ∃ f, entryFor input p = some f ∧
        get_file_hash f = some g.1 ∧ get_file_size f = (g.1.length : Int) := by
  intro g hg
  have hmem := List.mem_filter.1 hg
  have hlen : 2 ≤ g.2.length := by
    have := of_decide_eq_true hmem.2
    omega
  refine ⟨hlen, fun p hp => ?_⟩
  obtain ⟨f, hfin, hpath, hstat, hread, hcont⟩ :=
    hash_map_forall input limit g hmem.1 p hp
  refine ⟨f, hpath ▸ entryFor_eq_of_mem input hnd f hfin, ?_, ?_⟩
  · rw [get_file_hash, if_pos hread, hcont]
  · rw [get_file_size, if_pos hstat, hcont]

/-- Witness for C4 on a concrete three-file input (two readable identical
files and one unreadable). -/
theorem scanner_soundness_witness :
    (wInput.map SFile.path).Nodup ∧
    ∀ g ∈ find_duplicates wInput 3,
      2 ≤ g.2.length ∧
      ∀ p ∈ g.2, ∃ f, entryFor wInput p = some f ∧
        get_file_hash f = some g.1 ∧ get_file_size f = (g.1.length : Int) :=
  ⟨by decide, scanner_soundness wInput 3 (by decide)⟩

/-- C8.  Fingerprinter failure isolation: `get_file_hash` is total (it
returns `none` rather than raising), an unreadable file's path appears in no
returned duplicate group, and groups that would thereby fall under two
members are discarded (every returned group still has ≥ 2 members). -/
theorem fingerprinter_failure_isolation (input : List SFile) (limit : Nat)
    (hnd : (input.map SFile.path).Nodup) (f : SFile) (hf : f ∈ input)
    (hr : f.readable = false) :
    (get_file_hash f = none) ∧
    (∀ g ∈ find_duplicates input limit, f.path ∉ g.2) ∧
    (∀ g ∈ find_duplicates input limit, 2 ≤ g.2.length) := by
  refine ⟨by rw [get_file_hash, if_neg (by rw [hr]; exact Bool.false_ne_true)], ?_, ?_⟩
  · intro g hg hp
    have hmem := List.mem_filter.1 hg
    obtain ⟨f', hfin, hpath, _, hread, _⟩ :=
      hash_map_forall input limit g hmem.1 f.path hp
    have : f' = f := path_inj input hnd hfin hf hpath
    rw [this, hr] at hread
    cases hread
  · intro g hg
    have := of_decide_eq_true (List.mem_filter.1 hg).2
    omega

/-- Witness for C8: the unreadable file of the concrete input is excluded
from the single group the scan returns. -/
theorem fingerprinter_failure_isolation_witness :
    ((wInput.map SFile.path).Nodup ∧ wUnreadable ∈ wInput ∧
      wUnreadable.readable = false) ∧
    (get_file_hash wUnreadable = none) ∧
    (∀ g ∈ find_duplicates wInput 3, wUnreadable.path ∉ g.2) ∧
    (∀ g ∈ find_duplicates wInput 3, 2 ≤ g.2.length) :=
  ⟨⟨by decide, by decide, by decide⟩,
    fingerprinter_failure_isolation wInput 3 (by decide) wUnreadable (by decide) (by decide)⟩

/-! ## Keep-first resolution -/

theorem files_to_move_yes_eq (dups : List (List Nat × List String)) :
    files_to_move_yes dups =
      dups.flatMap (fun g => if g.2.length > 1 then g.2.drop 1 else []) := by
  suffices h : ∀ (l : List (List Nat × List String)) (init : List String),
      l.foldl (fun acc g => if g.2.length > 1 then acc ++ g.2.drop 1 else acc) init =
        init ++ l.flatMap (fun g => if g.2.length > 1 then g.2.drop 1 else []) by
    simpa [files_to_move_yes] using h dups []
  intro l
  induction l with
  | nil => simp
  | cons g t ih =>
    intro init
    simp only [List.foldl_cons, List.flatMap_cons]
    by_cases hg : g.2.length > 1
    · rw [if_pos hg, if_pos hg, ih, List.append_assoc]
    · rw [if_neg hg, if_neg hg, ih, List.nil_append]

/-- C9.  Keep-first resolution: the removal candidates are exactly, for each
group with at least two members, the members at index 1 and above; when the
listed paths are distinct (as they are for a real scan), the member at index
0 of every group is not a removal candidate. -/
theorem keep_first_resolution (dups : List (List Nat × List String))
    (hnd : (dups.flatMap (fun g => g.2)).Nodup) :
    (∀ x, x ∈ files_to_move_yes dups ↔
      ∃ g ∈ dups, 2 ≤ g.2.length ∧ x ∈ g.2.drop 1) ∧
    (∀ g ∈ dups, ∀ hd, g.2.head? = some hd → hd ∉ files_to_move_yes dups) := by
  have h1 : ∀ x, x ∈ files_to_move_yes dups ↔
      ∃ g ∈ dups, 2 ≤ g.2.length ∧ x ∈ g.2.drop 1 := by
    intro x
    rw [files_to_move_yes_eq, List.mem_flatMap]
    constructor
    · rintro ⟨g, hg, hx⟩
      by_cases hlen : g.2.length > 1
      · rw [if_pos hlen] at hx
        exact ⟨g, hg, by omega, hx⟩
      · rw [if_neg hlen] at hx
        cases hx
    · rintro ⟨g, hg, hlen, hx⟩
      exact ⟨g, hg, by rw [if_pos (by omega)]; exact hx⟩
  refine ⟨h1, ?_⟩
  intro g hg hd hhd hmem
  obtain ⟨s, t, hst⟩ := List.append_of_mem hg
  obtain ⟨tl, htl⟩ : ∃ tl, g.2 = hd :: tl := by
    cases hval : g.2 with
    | nil => rw [hval] at hhd; cases hhd
    | cons a l =>
      rw [hval] at hhd
      exact ⟨l, by injection hhd with h; rw [h]⟩
  rw [hst, List.flatMap_append, List.flatMap_cons] at hnd
  have hdisj1 := List.disjoint_of_nodup_append hnd
  have hnd2 := (List.nodup_append.1 hnd).2.1
  have hdisj2 := List.disjoint_of_nodup_append hnd2
  have hndg : g.2.Nodup := (List.nodup_append.1 hnd2).1
  have hdg : hd ∈ g.2 := by rw [htl]; exact List.mem_cons_self _ _
  obtain ⟨g', hg', hlen', hdrop⟩ := (h1 hd).1 hmem
  rw [hst] at hg'
  rcases List.mem_append.1 hg' with h | h
  · have : hd ∈ s.flatMap (fun g => g.2) :=
      List.mem_flatMap.2 ⟨g', h, List.mem_of_mem_drop hdrop⟩
    exact hdisj1 this (List.mem_append_left _ hdg)
  · rcases List.mem_cons.1 h with h | h
    · rw [h] at hdrop
      rw [htl] at hdrop
      simp only [List.drop_one, List.tail_cons] at hdrop
      rw [htl, List.nodup_cons] at hndg
      exact hndg.1 hdrop
    · have : hd ∈ t.flatMap (fun g => g.2) :=
        List.mem_flatMap.2 ⟨g', h, List.mem_of_mem_drop hdrop⟩
      exact hdisj2 hdg this

/-- Witness for C9 on a concrete pair of groups. -/
theorem keep_first_resolution_witness :
    (wDups.flatMap (fun g => g.2)).Nodup ∧
    ((∀ x, x ∈ files_to_move_yes wDups ↔
        ∃ g ∈ wDups, 2 ≤ g.2.length ∧ x ∈ g.2.drop 1) ∧
      (∀ g ∈ wDups, ∀ hd, g.2.head? = some hd → hd ∉ files_to_move_yes wDups)) :=
  ⟨by decide, keep_first_resolution wDups (by decide)⟩

/-! ## Filesystem-model lemmas -/

theorem find_filter_ne (l : List (Path × Content)) (p q : Path) :
    (l.filter (fun e => ¬ e.1 = p)).find? (fun e => e.1 = q) =
      if q = p then none else l.find? (fun e => e.1 = q) := by
  induction l with
  | nil => simp
  | cons e t ih =>
    by_cases hep : e.1 = p
    · rw [List.filter_cons_of_neg (by simp [hep]), ih]
      by_cases hq : q = p
      · simp [hq]
      · rw [if_neg hq, if_neg hq,
          List.find?_cons_of_neg _
            (by simp only [decide_eq_true_eq]; intro h; exact hq (h.symm.trans hep))]
    · rw [List.filter_cons_of_pos (by simp [hep])]
      by_cases heq : e.1 = q
      · rw [List.find?_cons_of_pos _ (by simp [heq]),
          List.find?_cons_of_pos _ (by simp [heq])]
        have hq : ¬ q = p := fun h => hep (heq.trans h)
        rw [if_neg hq]
      · rw [List.find?_cons_of_neg _ (by simp [heq]),
          List.find?_cons_of_neg _ (by simp [heq]), ih]

theorem lookupFile_eraseFile (fs : FS) (p q : Path) :
    lookupFile (eraseFile fs p) q = if q = p then none else lookupFile fs q := by
  rw [lookupFile, eraseFile]
  simp only [find_filter_ne]
  by_cases hq : q = p
  · simp [hq]
  · simp [hq, lookupFile]

theorem lookupFile_insertFile (fs : FS) (p : Path) (c : Content) (q : Path) :
    lookupFile (insertFile fs p c) q = if q = p then some c else lookupFile fs q := by
  rw [lookupFile, insertFile]
  simp only [List.find?_append, find_filter_ne]
  by_cases hq : q = p
  · simp [hq]
  · simp only [if_neg hq]
    cases h : (fs.files.find? (fun e => e.1 = q)) with
    | none =>
      simp only [Option.none_or]
      rw [List.find?_cons_of_neg _ (by simp; intro h; exact hq h.symm)]
      simp [lookupFile, h]
    | some e => simp [lookupFile, h]

theorem lookupFile_mkdirs (fs : FS) (d : Path) (q : Path) :
    lookupFile (mkdirs fs d) q = lookupFile fs q := rfl

theorem existsDir_mkdirs_self (fs : FS) (d : Path) :
    existsDir (mkdirs fs d) d = true := by
  simp only [existsDir, mkdirs, Bool.or_eq_true, decide_eq_true_eq]
  by_cases hnil : d = []
  · exact Or.inl hnil
  · right
    by_cases hmem : d ∈ fs.dirs
    · exact List.mem_append_left _ hmem
    · refine List.mem_append_right _ (List.mem_filter.2 ⟨?_, ?_⟩)
      · refine List.mem_map.2 ⟨d.length - 1, List.mem_range.2 ?_, ?_⟩
        · have : 0 < d.length := List.length_pos.2 hnil
          omega
        · rw [Nat.sub_add_cancel (List.length_pos.2 hnil), List.take_length]
      · simp [existsDir, hnil, hmem]

/-! ## Dry-run behaviour of the primitives -/

theorem move_file_dry (src dst : Path) (fs : FS) :
    (move_file true src dst fs).1 = fs ∧ (move_file true src dst fs).2.2 = [] := by
  by_cases hdir : existsPath fs (dst.dropLast) <;> simp [move_file, hdir]

theorem delete_file_dry (p : Path) (fs : FS) :
    (delete_file true p fs).1 = fs ∧ (delete_file true p fs).2.2 = [] := by
  simp [delete_file]

theorem create_empty_file_dry (p : Path) (fs : FS) :
    (create_empty_file true p fs).1 = fs ∧ (create_empty_file true p fs).2.2 = [] := by
  by_cases hdir : existsPath fs (p.dropLast) <;> simp [create_empty_file, hdir]

theorem applyOp_fs (st : OrgSt) (f : FS → FS × List Action × List JEntry) :
    (applyOp st f).fs = (f st.fs).1 ∧
    (applyOp st f).journal = st.journal ++ (f st.fs).2.2 := ⟨rfl, rfl⟩

theorem foldl_st_preserved {α : Type} (g : OrgSt → α → OrgSt)
    (h : ∀ st a, (g st a).fs = st.fs ∧ (g st a).journal = st.journal) :
    ∀ (l : List α) (st : OrgSt),
      ((l.foldl g st).fs = st.fs ∧ (l.foldl g st).journal = st.journal) := by
  intro l
  induction l with
  | nil => intro st; exact ⟨rfl, rfl⟩
  | cons a t ih =>
    intro st
    rw [List.foldl_cons]
    obtain ⟨h1, h2⟩ := ih (g st a)
    obtain ⟨h3, h4⟩ := h st a
    exact ⟨h1.trans h3, h2.trans h4⟩

theorem foldl_pair_preserved {α β : Type} (g : (OrgSt × β) → α → (OrgSt × β))
    (h : ∀ acc a, ((g acc a).1.fs = acc.1.fs ∧ (g acc a).1.journal = acc.1.journal)) :
    ∀ (l : List α) (acc : OrgSt × β),
      ((l.foldl g acc).1.fs = acc.1.fs ∧ (l.foldl g acc).1.journal = acc.1.journal) := by
  intro l
  induction l with
  | nil => intro acc; exact ⟨rfl, rfl⟩
  | cons a t ih =>
    intro acc
    rw [List.foldl_cons]
    obtain ⟨h1, h2⟩ := ih (g acc a)
    obtain ⟨h3, h4⟩ := h acc a
    exact ⟨h1.trans h3, h2.trans h4⟩

/-! ## The expected-directory pass never journals -/

theorem orgStep1Item_journal (dry : Bool) (layout : Layout) (st : OrgSt) (d : Path)
    (hd : d ∈ expected_directory_paths layout) :
    (orgStep1Item dry layout st d).journal = st.journal := by
  rw [orgStep1Item]
  by_cases hex : existsPath st.fs d
  · simp [hex]
  · cases dry with
    | true => simp [hex]
    | false => simp [hex, hd]

theorem mem_of_mem_insertSorted {α : Type} (le : α → α → Bool) (x a : α)
    (l : List α) (h : a ∈ insertSorted le x l) : a = x ∨ a ∈ l := by
  induction l with
  | nil =>
    rw [insertSorted, List.mem_singleton] at h
    exact Or.inl h
  | cons b t ih =>
    rw [insertSorted] at h
    split at h
    · rcases List.mem_cons.1 h with h | h
      · exact Or.inr (h ▸ List.mem_cons_self _ _)
      · rcases ih h with h | h
        · exact Or.inl h
        · exact Or.inr (List.mem_cons_of_mem _ h)
    · rcases List.mem_cons.1 h with h | h
      · exact Or.inl h
      · exact Or.inr h

theorem mem_of_mem_sortByPy {α : Type} (le : α → α → Bool) (a : α) (l : List α)
    (h : a ∈ sortByPy le l) : a ∈ l := by
  rw [sortByPy] at h
  have haux : ∀ (l : List α) (acc : List α),
      a ∈ l.foldl (fun acc a => insertSorted le a acc) acc → a ∈ acc ∨ a ∈ l := by
    intro l
    induction l with
    | nil => intro acc h; exact Or.inl h
    | cons x t ih =>
      intro acc h
      rw [List.foldl_cons] at h
      rcases ih _ h with h | h
      · rcases mem_of_mem_insertSorted le x a acc h with h | h
        · exact Or.inr (h ▸ List.mem_cons_self _ _)
        · exact Or.inl h
      · exact Or.inr (List.mem_cons_of_mem _ h)
  rcases haux l [] h with h | h
  · cases h
  · exact h

theorem orgStep1_journal (dry : Bool) (layout : Layout) (st : OrgSt) :
    (orgStep1 dry layout st).journal = st.journal := by
  rw [orgStep1]
  have haux : ∀ (l : List Path), (∀ d ∈ l, d ∈ expected_directory_paths layout) →
      ∀ st : OrgSt, (l.foldl (orgStep1Item dry layout) st).journal = st.journal := by
    intro l
    induction l with
    | nil => intro _ st; rfl
    | cons d t ih =>
      intro hmem st
      rw [List.foldl_cons, ih (fun x hx => hmem x (List.mem_cons_of_mem _ hx)),
        orgStep1Item_journal dry layout st d (hmem d (List.mem_cons_self _ _))]
  exact haux _ (fun d hd => mem_of_mem_sortByPy pathLe d _ hd) st

/-! ## A dry run mutates nothing and journals nothing -/

theorem applyOp_dry_delete (st : OrgSt) (p : Path) :
    (applyOp st (delete_file true p)).fs = st.fs ∧
    (applyOp st (delete_file true p)).journal = st.journal := by
  obtain ⟨h1, h2⟩ := delete_file_dry p st.fs
  exact ⟨(applyOp_fs st _).1.trans h1,
    ((applyOp_fs st _).2.trans (by rw [h2, List.append_nil]))⟩

theorem applyOp_dry_move (st : OrgSt) (src dst : Path) :
    (applyOp st (move_file true src dst)).fs = st.fs ∧
    (applyOp st (move_file true src dst)).journal = st.journal := by
  obtain ⟨h1, h2⟩ := move_file_dry src dst st.fs
  exact ⟨(applyOp_fs st _).1.trans h1,
    ((applyOp_fs st _).2.trans (by rw [h2, List.append_nil]))⟩

theorem applyOp_dry_create (st : OrgSt) (p : Path) :
    (applyOp st (create_empty_file true p)).fs = st.fs ∧
    (applyOp st (create_empty_file true p)).journal = st.journal := by
  obtain ⟨h1, h2⟩ := create_empty_file_dry p st.fs
  exact ⟨(applyOp_fs st _).1.trans h1,
    ((applyOp_fs st _).2.trans (by rw [h2, List.append_nil]))⟩

theorem deleteFold_dry (l : List Path) (st : OrgSt) :
    ((l.foldl (fun st p => applyOp st (delete_file true p)) st).fs = st.fs ∧
      (l.foldl (fun st p => applyOp st (delete_file true p)) st).journal = st.journal) :=
  foldl_st_preserved _ (fun st p => applyOp_dry_delete st p) l st

theorem orgStep1_dry (layout : Layout) (st : OrgSt) :
    (orgStep1 true layout st).fs = st.fs ∧
    (orgStep1 true layout st).journal = st.journal := by
  rw [orgStep1]
  refine foldl_st_preserved _ ?_ _ st
  intro st d
  rw [orgStep1Item]
  by_cases hex : existsPath st.fs d
  · simp [hex]
  · simp [hex]

theorem orgStep2Item_dry (acc : OrgSt × List Path) (t : String × String × String) :
    (orgStep2Item true acc t).1.fs = acc.1.fs ∧
    (orgStep2Item true acc t).1.journal = acc.1.journal := by
  simp only [orgStep2Item]
  split
  · exact ⟨rfl, rfl⟩
  · split
    · exact deleteFold_dry _ acc.1
    · split
      · exact applyOp_dry_create acc.1 _
      · rename_i src rest _
        obtain ⟨h1, h2⟩ := deleteFold_dry rest (applyOp acc.1 (move_file true src _))
        obtain ⟨h3, h4⟩ := applyOp_dry_move acc.1 src _
        exact ⟨h1.trans h3, h2.trans h4⟩

theorem orgStep2_dry (layout : Layout) (st : OrgSt) :
    (orgStep2 true layout st).fs = st.fs ∧
    (orgStep2 true layout st).journal = st.journal := by
  rw [orgStep2]
  exact foldl_pair_preserved _ orgStep2Item_dry _ (st, [])

theorem orgStep3_dry (layout : Layout) (st : OrgSt) :
    (orgStep3 true layout st).fs = st.fs ∧
    (orgStep3 true layout st).journal = st.journal := by
  rw [orgStep3]
  refine foldl_st_preserved _ ?_ _ st
  intro st p
  rw [orgStep3Item]
  split
  · exact ⟨rfl, rfl⟩
  · split
    · split
      · exact ⟨rfl, rfl⟩
      · exact applyOp_dry_delete st p
    · exact ⟨rfl, rfl⟩

theorem orgStep4_dry (layout : Layout) (st : OrgSt) :
    (orgStep4 true layout st).fs = st.fs ∧
    (orgStep4 true layout st).journal = st.journal := by
  rw [orgStep4]
  refine foldl_st_preserved _ ?_ _ st
  intro st e
  rw [orgStep4Item]
  split
  · exact ⟨rfl, rfl⟩
  · split
    · simp
    · exact ⟨rfl, rfl⟩

/-- C3 (amended).  A dry run leaves the filesystem untouched and appends no
journal entry (the claimed equality of whole-run action sequences fails; see
the counterexample). -/
theorem dry_run_mutates_nothing (layout : Layout) (fs : FS) :
    (organize_project layout true fs).fs = fs ∧
    (organize_project layout true fs).journal = [] := by
  rw [organize_project]
  obtain ⟨h1f, h1j⟩ := orgStep1_dry layout ⟨fs, [], []⟩
  obtain ⟨h2f, h2j⟩ := orgStep2_dry layout (orgStep1 true layout ⟨fs, [], []⟩)
  obtain ⟨h3f, h3j⟩ := orgStep3_dry layout
    (orgStep2 true layout (orgStep1 true layout ⟨fs, [], []⟩))
  obtain ⟨h4f, h4j⟩ := orgStep4_dry layout
    (orgStep3 true layout (orgStep2 true layout (orgStep1 true layout ⟨fs, [], []⟩)))
  exact ⟨h4f.trans (h3f.trans (h2f.trans h1f)),
    h4j.trans (h3j.trans (h2j.trans h1j))⟩

/-! ## Journal behaviour of the primitives (real mode) -/

theorem existsFile_false_iff (fs : FS) (p : Path) :
    existsFile fs p = false ↔ lookupFile fs p = none := by
  rw [existsFile]
  cases lookupFile fs p <;> simp

theorem existsFile_true_iff (fs : FS) (p : Path) :
    existsFile fs p = true ↔ ∃ c, lookupFile fs p = some c := by
  rw [existsFile]
  cases lookupFile fs p <;> simp

theorem move_file_journal (fs : FS) (src dst : Path) :
    (move_file false src dst fs).2.2 =
      if existsFile fs src then [JEntry.mv dst src] else [] := by
  by_cases hsrc : existsFile fs src = true
  · obtain ⟨c, hc⟩ := (existsFile_true_iff fs src).1 hsrc
    by_cases hdir : existsPath fs (dst.dropLast) = true
    · simp [move_file, hdir, hc, hsrc]
    · simp [move_file, hdir, lookupFile_mkdirs, hc, hsrc]
  · have hnone := (existsFile_false_iff fs src).1 (Bool.not_eq_true _ ▸ hsrc)
    by_cases hdir : existsPath fs (dst.dropLast) = true
    · simp [move_file, hdir, hnone, hsrc]
    · simp [move_file, hdir, lookupFile_mkdirs, hnone, hsrc]

theorem delete_file_journal (fs : FS) (p : Path) :
    (delete_file false p fs).2.2 =
      if existsFile fs p then [JEntry.create p] else [] := by
  by_cases hp : existsFile fs p = true
  · obtain ⟨c, hc⟩ := (existsFile_true_iff fs p).1 hp
    simp [delete_file, hc, hp]
  · have hnone := (existsFile_false_iff fs p).1 (Bool.not_eq_true _ ▸ hp)
    simp [delete_file, hnone, hp]

theorem create_empty_file_journal (fs : FS) (p : Path) :
    (create_empty_file false p fs).2.2 = [JEntry.del p] := by
  by_cases hdir : existsPath fs (p.dropLast) = true <;>
    simp [create_empty_file, hdir]

/-- C5 (amended).  For the move, delete and create-empty-file primitives, an
inverse journal entry is appended exactly when the forward mutation succeeds
(a missing file on move or delete appends nothing); the create-empty-file
mutation always succeeds and always journals its inverse.  Directory
creation, however, never journals: the expected-directory pass appends no
entry, because its `DELETE_DIR` guard can never hold. -/
theorem journal_atomicity_amended :
    (∀ (fs : FS) (src dst : Path),
      (move_file false src dst fs).2.2 =
        if existsFile fs src then [JEntry.mv dst src] else []) ∧
    (∀ (fs : FS) (p : Path),
      (delete_file false p fs).2.2 =
        if existsFile fs p then [JEntry.create p] else []) ∧
    (∀ (fs : FS) (p : Path),
      (create_empty_file false p fs).2.2 = [JEntry.del p]) ∧
    (∀ (dry : Bool) (layout : Layout) (st : OrgSt),
      (orgStep1 dry layout st).journal = st.journal) :=
  ⟨move_file_journal, delete_file_journal, create_empty_file_journal,
    orgStep1_journal⟩

/-- C5 counterexample: in the concrete real run the engine creates the
expected directory `a` (absent before, present after), yet the produced
journal — listed in full — contains no inverse entry for that creation. -/
theorem journal_atomicity_counterexample :
    (["a"] ∈ cexReal.fs.dirs ∧ ["a"] ∉ cexFS.dirs) ∧
    cexReal.journal = [JEntry.mv ["a", "f.txt"] ["b", "f.txt"],
      JEntry.create ["b", "g.txt"], JEntry.createDir ["b"]] ∧
    JEntry.deleteDir ["a"] ∉ cexReal.journal := by
  exact ⟨⟨by decide, by decide⟩, by decide, by decide⟩

/-! ## Move semantics -/

theorem lookupFile_dirs_update (fs : FS) (ds : List Path) (q : Path) :
    lookupFile { fs with dirs := ds } q = lookupFile fs q := rfl

theorem existsDir_files_update (fs : FS) (l : List (Path × Content)) (d : Path) :
    existsDir { fs with files := l } d = existsDir fs d := rfl

/-- A name the quarantine probe accepts is free. -/
theorem freeQuarantineName_free (fs : FS) (qdir : Path) (base : String)
    (fuel : Nat) (p : Path) (h : freeQuarantineName fs qdir base fuel = some p) :
    existsPath fs p = false := by
  rw [freeQuarantineName] at h
  obtain ⟨n, _, hn⟩ := List.exists_of_findSome?_eq_some h
  by_cases hex : existsPath fs (quarantineCandidate qdir base n) = true
  · rw [if_pos hex] at hn
    cases hn
  · rw [if_neg hex] at hn
    injection hn with hn
    rw [← hn]
    exact Bool.not_eq_true _ ▸ hex

/-- C6 (amended).  The move primitive creates the destination's parent
directory when the destination's parent is absent; but when the destination
path itself already holds a file, the move silently replaces it — the
destination ends up with the source's content.  Collision avoidance is the
caller's job, and the quarantine caller's numeric-suffix probe does return a
free name. -/
theorem move_overwrite_amended (fs : FS) (src dst : Path) (qdir : Path)
    (base : String) (fuel : Nat) (pfree : Path)
    (hsrc : existsFile fs src = true)
    (hfree : freeQuarantineName fs qdir base fuel = some pfree) :
    (existsPath fs dst.dropLast = false →
      existsDir (move_file false src dst fs).1 dst.dropLast = true) ∧
    lookupFile (move_file false src dst fs).1 dst = lookupFile fs src ∧
    existsPath fs pfree = false := by
  obtain ⟨c, hc⟩ := (existsFile_true_iff fs src).1 hsrc
  refine ⟨?_, ?_, freeQuarantineName_free fs qdir base fuel pfree hfree⟩
  · intro hdir
    have hdir' : ¬ existsPath fs dst.dropLast = true := by rw [hdir]; decide
    simp only [move_file, if_pos hdir', Bool.false_eq_true, if_false,
      lookupFile_mkdirs, hc]
    rw [insertFile, eraseFile]
    rw [existsDir_files_update, existsDir_files_update]
    exact existsDir_mkdirs_self fs dst.dropLast
  · by_cases hdir : existsPath fs dst.dropLast = true
    · simp [move_file, hdir, hc, lookupFile_insertFile]
    · simp [move_file, hdir, hc, lookupFile_mkdirs, lookupFile_insertFile]

/-- Witness for C6 (amended) on a concrete two-file filesystem. -/
theorem move_overwrite_amended_witness :
    (existsFile wFS ["a"] = true ∧
      freeQuarantineName wFS ["q"] "a.txt" 3 = some ["q", "a.txt"]) ∧
    ((existsPath wFS (["c", "x"] : Path).dropLast = false →
        existsDir (move_file false ["a"] ["c", "x"] wFS).1
          (["c", "x"] : Path).dropLast = true) ∧
      lookupFile (move_file false ["a"] ["c", "x"] wFS).1 ["c", "x"] =
        lookupFile wFS ["a"] ∧
      existsPath wFS ["q", "a.txt"] = false) :=
  ⟨⟨by decide, by decide⟩,
    move_overwrite_amended wFS ["a"] ["c", "x"] ["q"] "a.txt" 3 ["q", "a.txt"]
      (by decide) (by decide)⟩

/-- C6 counterexample: moving onto an existing destination file replaces it
silently — the destination held `[2]`, holds `[1]` after the move, the old
bytes are gone, and the only description logged is the ordinary move. -/
theorem move_overwrite_counterexample :
    existsFile wFS ["b"] = true ∧ lookupFile wFS ["b"] = some [2] ∧
    (move_file false ["a"] ["b"] wFS).1.files = [(["b"], [1])] ∧
    (move_file false ["a"] ["b"] wFS).2.1 = [Action.move ["a"] ["b"]] := by
  exact ⟨by decide, by decide, by decide, by decide⟩

/-! ## Relocate-plus-archive vs unlink-in-place -/

/-- C2 (amended).  In the duplicate-cleaner's move phase, a selected
duplicate whose source can be read is relocated to a fresh quarantine name
and appended byte-for-byte to the backup archive, and it is gone from its
original path; but the layout reconciler's `delete_file` removes its target
in place — the resulting file list is exactly the old one with the entry
filtered out, with no quarantine or archive step. -/
theorem delete_relocate_archive_amended (st : ArchSt) (qdir : Path)
    (fuel : Nat) (f : Path) (base : String) (np : Path) (c : Content)
    (hbase : f.getLast? = some base)
    (hfree : freeQuarantineName st.fs qdir base fuel = some np)
    (hc : lookupFile st.fs f = some c) :
    ((processQuarantineMove qdir fuel st f).zip = st.zip ++ [(np, c)] ∧
      lookupFile (processQuarantineMove qdir fuel st f).fs np = some c ∧
      lookupFile (processQuarantineMove qdir fuel st f).fs f = none) ∧
    (∀ (fs' : FS) (p' : Path),
      (delete_file false p' fs').1.files =
        fs'.files.filter (fun e => ¬ e.1 = p')) := by
  have hne : ¬ f = np := by
    intro h
    have hfr := freeQuarantineName_free st.fs qdir base fuel np hfree
    have : existsPath st.fs np = true := by
      rw [← h, existsPath, existsFile, hc]
      rfl
    rw [hfr] at this
    cases this
  refine ⟨⟨?_, ?_, ?_⟩, ?_⟩
  · simp [processQuarantineMove, hbase, hfree, hc]
  · simp only [processQuarantineMove, hbase, hfree, hc]
    rw [lookupFile_insertFile, if_pos rfl]
  · simp only [processQuarantineMove, hbase, hfree, hc]
    rw [lookupFile_insertFile, if_neg hne, lookupFile_eraseFile, if_pos rfl]
  · intro fs' p'
    cases h : lookupFile fs' p' with
    | none =>
      simp only [delete_file, h, Bool.false_eq_true, if_false]
      refine ((List.filter_eq_self).2 ?_).symm
      intro e he
      rw [lookupFile, Option.map_eq_none'] at h
      have hne := List.find?_eq_none.1 h e he
      simp only [decide_eq_true_eq] at hne ⊢
      exact hne
    | some c' =>
      simp [delete_file, h, eraseFile]

/-- C2 counterexample: in the concrete real run the unlisted file
`b/g.txt` (bytes `[5]`) is removed by a plain in-place delete — the logged
actions (listed in full) contain its `Delete` and no move of it, the final
tree (listed in full) holds its bytes nowhere, and this flow has no archive
container at all. -/
theorem delete_unlinks_in_place_counterexample :
    cexReal.acts = [Action.mkdirExpected ["a"],
      Action.move ["b", "f.txt"] ["a", "f.txt"],
      Action.deleteF ["b", "g.txt"], Action.rmdir ["b"]] ∧
    cexReal.fs.files = [(["a", "f.txt"], [7])] ∧
    lookupFile cexFS ["b", "g.txt"] = some [5] := by
  exact ⟨by decide, by decide, by decide⟩

/-- Witness for C2 (amended) on a concrete quarantine move. -/
theorem delete_relocate_archive_amended_witness :
    ((["b", "f.txt"] : Path).getLast? = some "f.txt" ∧
      freeQuarantineName cexFS ["q"] "f.txt" 3 = some ["q", "f.txt"] ∧
      lookupFile cexFS ["b", "f.txt"] = some [7]) ∧
    (((processQuarantineMove ["q"] 3 ⟨cexFS, [], 0⟩ ["b", "f.txt"]).zip =
        ([] : List (Path × Content)) ++ [(["q", "f.txt"], [7])] ∧
      lookupFile (processQuarantineMove ["q"] 3 ⟨cexFS, [], 0⟩ ["b", "f.txt"]).fs
          ["q", "f.txt"] = some [7] ∧
      lookupFile (processQuarantineMove ["q"] 3 ⟨cexFS, [], 0⟩ ["b", "f.txt"]).fs
          ["b", "f.txt"] = none) ∧
      ∀ (fs' : FS) (p' : Path),
        (delete_file false p' fs').1.files =
          fs'.files.filter (fun e => ¬ e.1 = p')) :=
  ⟨⟨by decide, by decide, by decide⟩,
    delete_relocate_archive_amended ⟨cexFS, [], 0⟩ ["q"] 3 ["b", "f.txt"]
      "f.txt" ["q", "f.txt"] [7] (by decide) (by decide) (by decide)⟩

/-! ## Replaying the journal of a safe run -/

theorem lookupFile_move_file (fs : FS) (src dst : Path) (c : Content)
    (hsrc : lookupFile fs src = some c) (q : Path) :
    lookupFile (move_file false src dst fs).1 q =
      if q = dst then some c
      else if q = src then none
      else lookupFile fs q := by
  by_cases hdir : existsPath fs (dst.dropLast) = true
  · simp only [move_file, hdir, not_true_eq_false, if_false, Bool.false_eq_true,
      hsrc]
    rw [lookupFile_insertFile, lookupFile_eraseFile]
  · simp only [move_file, hdir, not_false_eq_true, if_true, Bool.false_eq_true,
      if_false, lookupFile_mkdirs, hsrc]
    rw [lookupFile_insertFile, lookupFile_eraseFile, lookupFile_mkdirs]

theorem lookupFile_create_empty_file (fs : FS) (p q : Path) :
    lookupFile (create_empty_file false p fs).1 q =
      if q = p then some [] else lookupFile fs q := by
  by_cases hdir : existsPath fs (p.dropLast) = true
  · simp only [create_empty_file, hdir, not_true_eq_false, if_false,
      Bool.false_eq_true]
    rw [lookupFile_insertFile]
  · simp only [create_empty_file, hdir, not_false_eq_true, if_true,
      Bool.false_eq_true, if_false]
    rw [lookupFile_insertFile, lookupFile_mkdirs]

theorem delete_file_some (fs : FS) (p : Path) (c : Content)
    (hc : lookupFile fs p = some c) :
    (delete_file false p fs).1 = eraseFile fs p ∧
    (delete_file false p fs).2.2 = [JEntry.create p] := by
  constructor <;> simp [delete_file, hc]

theorem delete_file_none (fs : FS) (p : Path) (hc : lookupFile fs p = none) :
    delete_file false p fs = (fs, [], []) := by
  simp [delete_file, hc]

theorem replay_cons (fs : FS) (e : JEntry) (J : List JEntry) :
    replay_rollback fs (e :: J) =
      apply_rollback_entry (replay_rollback fs J) e := by
  rw [replay_rollback, replay_rollback, List.reverse_cons, List.foldl_append]
  rfl

theorem apply_mv_of_lookup (g : FS) (p1 p2 : Path) (c : Content)
    (h : lookupFile g p1 = some c) :
    apply_rollback_entry g (JEntry.mv p1 p2) = insertFile (eraseFile g p1) p2 c := by
  simp [apply_rollback_entry, h]

theorem restoresUpToEmpty_congr (fs fs' g g' : FS)
    (hf : ∀ q, lookupFile fs' q = lookupFile fs q)
    (hg : ∀ q, lookupFile g' q = lookupFile g q)
    (h : restoresUpToEmpty fs' g') : restoresUpToEmpty fs g := by
  obtain ⟨h1, h2⟩ := h
  constructor
  · intro p
    rw [existsFile, existsFile, ← hf p, ← hg p]
    exact h1 p
  · intro p
    rw [← hf p, ← hg p]
    exact h2 p

/-- C1 (amended).  For every safe run of the transactional primitives — each
move finds its source and does not overwrite an existing file, each
create-empty-file targets a fresh path — replaying the produced journal in
reverse chronological order restores the original set of file paths, and
every path holds either its original bytes or the empty recreation of a file
the run deleted.  Byte-exact restoration of deleted files (claimed by the
specification) fails: see the counterexample. -/
theorem journal_reversibility_amended (ops : List Op) :
    ∀ fs : FS, safeOps fs ops = true →
      restoresUpToEmpty fs
        (replay_rollback (execOps fs ops).1 (execOps fs ops).2) := by
  induction ops with
  | nil =>
    intro fs _
    exact ⟨fun p => rfl, fun p => Or.inl rfl⟩
  | cons o rest ih =>
    intro fs hsafe
    rw [safeOps, Bool.and_eq_true] at hsafe
    obtain ⟨ho, hrest⟩ := hsafe
    have IH := ih (execOp fs o).1 hrest
    simp only [execOps]
    cases o with
    | mvOp src dst =>
      simp only [safeOp, Bool.and_eq_true] at ho
      obtain ⟨hsrc, hdstb⟩ := ho
      obtain ⟨c, hc⟩ := (existsFile_true_iff fs src).1 hsrc
      have hdstn : lookupFile fs dst = none :=
        (existsFile_false_iff fs dst).1 (by simpa using hdstb)
      have hj : (execOp fs (Op.mvOp src dst)).2 = [JEntry.mv dst src] := by
        simp only [execOp]
        rw [move_file_journal, if_pos hsrc]
      have hlook : ∀ q, lookupFile (execOp fs (Op.mvOp src dst)).1 q =
          if q = dst then some c else if q = src then none else lookupFile fs q := by
        intro q
        simp only [execOp]
        exact lookupFile_move_file fs src dst c hc q
      rw [hj, List.singleton_append, replay_cons]
      obtain ⟨IH1, IH2⟩ := IH
      have hdst1 : lookupFile (execOp fs (Op.mvOp src dst)).1 dst = some c := by
        rw [hlook dst, if_pos rfl]
      obtain ⟨c', hc', hcc⟩ :
          ∃ c', lookupFile (replay_rollback
              (execOps (execOp fs (Op.mvOp src dst)).1 rest).1
              (execOps (execOp fs (Op.mvOp src dst)).1 rest).2) dst = some c' ∧
            (c' = c ∨ c' = []) := by
        rcases IH2 dst with h | h
        · rw [hdst1] at h
          exact ⟨c, h, Or.inl rfl⟩
        · exact ⟨[], h, Or.inr rfl⟩
      rw [apply_mv_of_lookup _ dst src c' hc']
      constructor
      · intro p
        simp only [existsFile]
        rw [lookupFile_insertFile, lookupFile_eraseFile]
        by_cases hp1 : p = src
        · rw [if_pos hp1, hp1, hc]
          simp
        · rw [if_neg hp1]
          by_cases hp2 : p = dst
          · rw [if_pos hp2, hp2, hdstn]
          · rw [if_neg hp2]
            have hIH := IH1 p
            simp only [existsFile] at hIH
            rw [hlook p, if_neg hp2, if_neg hp1] at hIH
            exact hIH
      · intro p
        rw [lookupFile_insertFile, lookupFile_eraseFile]
        by_cases hp1 : p = src
        · rw [if_pos hp1, hp1, hc]
          rcases hcc with h | h
          · exact Or.inl (by rw [h])
          · exact Or.inr (by rw [h])
        · rw [if_neg hp1]
          by_cases hp2 : p = dst
          · rw [if_pos hp2, hp2, hdstn]
            exact Or.inl rfl
          · rw [if_neg hp2]
            rcases IH2 p with h | h
            · rw [hlook p, if_neg hp2, if_neg hp1] at h
              exact Or.inl h
            · exact Or.inr h
    | delOp p₀ =>
      cases hc : lookupFile fs p₀ with
      | none =>
        have hd := delete_file_none fs p₀ hc
        have hfs1 : (execOp fs (Op.delOp p₀)).1 = fs := by
          simp only [execOp]
          rw [hd]
        have hj : (execOp fs (Op.delOp p₀)).2 = [] := by
          simp only [execOp]
          rw [hd]
        rw [hj, List.nil_append, hfs1]
        rw [hfs1] at IH
        exact IH
      | some c =>
        obtain ⟨he, hj⟩ := delete_file_some fs p₀ c hc
        have hfs1 : (execOp fs (Op.delOp p₀)).1 = eraseFile fs p₀ := by
          simp only [execOp]
          rw [he]
        have hj' : (execOp fs (Op.delOp p₀)).2 = [JEntry.create p₀] := by
          simp only [execOp]
          rw [hj]
        rw [hj', List.singleton_append, replay_cons, hfs1]
        rw [hfs1] at IH
        obtain ⟨IH1, IH2⟩ := IH
        constructor
        · intro p
          simp only [existsFile, apply_rollback_entry]
          rw [lookupFile_insertFile]
          by_cases hp : p = p₀
          · rw [if_pos hp, hp, hc]
            simp
          · rw [if_neg hp]
            have hIH := IH1 p
            simp only [existsFile] at hIH
            rw [lookupFile_eraseFile, if_neg hp] at hIH
            exact hIH
        · intro p
          simp only [apply_rollback_entry]
          rw [lookupFile_insertFile]
          by_cases hp : p = p₀
          · rw [if_pos hp]
            exact Or.inr rfl
          · rw [if_neg hp]
            rcases IH2 p with h | h
            · rw [lookupFile_eraseFile, if_neg hp] at h
              exact Or.inl h
            · exact Or.inr h
    | mkfileOp p₀ =>
      simp only [safeOp] at ho
      have hnone : lookupFile fs p₀ = none :=
        (existsFile_false_iff fs p₀).1 (by simpa using ho)
      have hj : (execOp fs (Op.mkfileOp p₀)).2 = [JEntry.del p₀] := by
        simp only [execOp]
        rw [create_empty_file_journal]
      have hlook : ∀ q, lookupFile (execOp fs (Op.mkfileOp p₀)).1 q =
          if q = p₀ then some [] else lookupFile fs q := by
        intro q
        simp only [execOp]
        exact lookupFile_create_empty_file fs p₀ q
      rw [hj, List.singleton_append, replay_cons]
      obtain ⟨IH1, IH2⟩ := IH
      constructor
      · intro p
        simp only [existsFile, apply_rollback_entry]
        rw [lookupFile_eraseFile]
        by_cases hp : p = p₀
        · rw [if_pos hp, hp, hnone]
        · rw [if_neg hp]
          have hIH := IH1 p
          simp only [existsFile] at hIH
          rw [hlook p, if_neg hp] at hIH
          exact hIH
      · intro p
        simp only [apply_rollback_entry]
        rw [lookupFile_eraseFile]
        by_cases hp : p = p₀
        · rw [if_pos hp, hp, hnone]
          exact Or.inl rfl
        · rw [if_neg hp]
          rcases IH2 p with h | h
          · rw [hlook p, if_neg hp] at h
            exact Or.inl h
          · exact Or.inr h
    | mkdirOp d =>
      simp only [execOp] at IH ⊢
      rw [List.nil_append]
      exact restoresUpToEmpty_congr fs (mkdirs fs d) _ _
        (fun q => lookupFile_mkdirs fs d q) (fun q => rfl) IH
    | rmdirOp d =>
      simp only [execOp] at IH ⊢
      rw [List.singleton_append, replay_cons]
      refine restoresUpToEmpty_congr fs _ _ _ (fun q => rfl) (fun q => ?_) IH
      simp only [apply_rollback_entry]
      exact (lookupFile_mkdirs _ d q).symm

/-- Witness for C1 (amended): a concrete safe run (make a directory, move a
file into it, delete a file, create an empty file, remove a directory). -/
theorem journal_reversibility_amended_witness :
    safeOps wFS wOps = true ∧
    restoresUpToEmpty wFS
      (replay_rollback (execOps wFS wOps).1 (execOps wFS wOps).2) :=
  ⟨by decide, journal_reversibility_amended wOps wFS (by decide)⟩

/-- C1 counterexample: in the concrete real run the engine deletes the
unlisted file `b/g.txt`, whose bytes were `[5]`.  Replaying the produced
journal in reverse recreates it empty, so the pre-run tree is not restored
with the same content (and the directory `a` the run created survives the
replay). -/
theorem journal_reversibility_counterexample :
    lookupFile cexFS ["b", "g.txt"] = some [5] ∧
    lookupFile cexReplayed ["b", "g.txt"] = some [] ∧
    ["a"] ∉ cexFS.dirs ∧ ["a"] ∈ cexReplayed.dirs := by
  exact ⟨by decide, by decide, by decide, by decide⟩

/-- C3 counterexample: on the concrete input the dry run and the real run
log different action sequences.  The real run moves `b/f.txt` to its
canonical place before step 3 walks the tree, so step 3 spares it and step 4
removes the emptied `b`; the dry run, re-reading the unmutated tree, reports
an extra directory creation and an extra delete of the very file the real
run preserves, and reports no directory removal. -/
theorem dry_run_sequence_counterexample :
    cexDry.acts = [Action.mkdirExpected ["a"], Action.mkdir ["a"],
      Action.move ["b", "f.txt"] ["a", "f.txt"],
      Action.deleteF ["b", "f.txt"], Action.deleteF ["b", "g.txt"]] ∧
    cexReal.acts = [Action.mkdirExpected ["a"],
      Action.move ["b", "f.txt"] ["a", "f.txt"],
      Action.deleteF ["b", "g.txt"], Action.rmdir ["b"]] ∧
    cexDry.acts ≠ cexReal.acts := by
  exact ⟨by decide, by decide, by decide⟩

/-! ## `normpath` -/

theorem splitSlash_ne_nil (l : List Char) : splitSlash l ≠ [] := by
  cases l with
  | nil => simp [splitSlash]
  | cons c rest =>
    simp only [splitSlash]
    split
    · simp
    · split <;> simp

theorem splitSlash_no_slash (l : List Char) : ∀ c ∈ splitSlash l, '/' ∉ c := by
  induction l with
  | nil =>
    intro c hc
    simp only [splitSlash, List.mem_singleton] at hc
    subst hc
    simp
  | cons a rest ih =>
    intro c hc
    simp only [splitSlash] at hc
    by_cases ha : a = '/'
    · rw [if_pos ha] at hc
      rcases List.mem_cons.1 hc with h | h
      · subst h
        simp
      · exact ih c h
    · rw [if_neg ha] at hc
      cases hss : splitSlash rest with
      | nil => exact absurd hss (splitSlash_ne_nil rest)
      | cons s tl =>
        rw [hss] at hc
        rcases List.mem_cons.1 hc with h | h
        · subst h
          intro hmem
          rcases List.mem_cons.1 hmem with h | h
          · exact ha h.symm
          · exact ih s (hss ▸ List.mem_cons_self _ _) h
        · exact ih c (hss ▸ List.mem_cons_of_mem _ h)

theorem splitSlash_of_no_slash (c : List Char) (h : '/' ∉ c) :
    splitSlash c = [c] := by
  induction c with
  | nil => rfl
  | cons a t ih =>
    have ha : ¬ a = '/' := fun hh => h (hh ▸ List.mem_cons_self _ _)
    simp only [splitSlash, if_neg ha]
    rw [ih (fun hm => h (List.mem_cons_of_mem _ hm))]

theorem splitSlash_append_slash (c t : List Char) (h : '/' ∉ c) :
    splitSlash (c ++ '/' :: t) = c :: splitSlash t := by
  induction c with
  | nil => simp [splitSlash]
  | cons a c' ih =>
    have ha : ¬ a = '/' := fun hh => h (hh ▸ List.mem_cons_self _ _)
    simp only [List.cons_append, splitSlash, if_neg ha, List.append_eq]
    rw [ih (fun hm => h (List.mem_cons_of_mem _ hm))]

theorem splitSlash_join (comps : List (List Char)) (hne : comps ≠ [])
    (h : ∀ c ∈ comps, '/' ∉ c) : splitSlash (joinSlash comps) = comps := by
  induction comps with
  | nil => cases hne rfl
  | cons c rest ih =>
    cases rest with
    | nil =>
      simp only [joinSlash]
      exact splitSlash_of_no_slash c (h c (List.mem_cons_self _ _))
    | cons d tl =>
      simp only [joinSlash]
      rw [splitSlash_append_slash c _ (h c (List.mem_cons_self _ _)),
        ih (by simp) (fun x hx => h x (List.mem_cons_of_mem _ hx))]

theorem mem_of_getLast?_eq {α : Type} (l : List α) (x : α)
    (h : l.getLast? = some x) : x ∈ l := by
  have hx : x ∈ l.getLast? := Option.mem_def.2 h
  obtain ⟨hne, heq⟩ := List.mem_getLast?_eq_getLast hx
  rw [heq]
  exact List.getLast_mem hne

theorem npStep_clean (k : Nat) (hk : k ≠ 0) (acc : List (List Char))
    (x : List Char) (hacc : ∀ c ∈ acc, CleanAbs c) (hx : '/' ∉ x) :
    ∀ y ∈ npStep k acc x, CleanAbs y := by
  intro y hy
  rw [npStep] at hy
  split at hy
  · exact hacc y hy
  · rename_i h1
    split at hy
    · rename_i h2
      rcases List.mem_append.1 hy with h | h
      · exact hacc y h
      · rw [List.mem_singleton] at h
        subst h
        push_neg at h1
        refine ⟨h1.1, h1.2, ?_, hx⟩
        rcases h2 with h | h | h
        · exact h
        · exact absurd h.1 hk
        · exact absurd ((hacc _ (mem_of_getLast?_eq _ _ h)).2.2.1) (by simp)
    · split at hy
      · exact hacc y (List.dropLast_sublist acc |>.subset hy)
      · exact hacc y hy

theorem npFold_clean (k : Nat) (hk : k ≠ 0) (comps : List (List Char)) :
    ∀ (acc : List (List Char)), (∀ c ∈ acc, CleanAbs c) →
      (∀ c ∈ comps, '/' ∉ c) →
      ∀ c ∈ comps.foldl (npStep k) acc, CleanAbs c := by
  induction comps with
  | nil => intro acc hacc _ c hc; exact hacc c hc
  | cons x rest ih =>
    intro acc hacc hcomps c hc
    rw [List.foldl_cons] at hc
    exact ih (npStep k acc x)
      (npStep_clean k hk acc x hacc (hcomps x (List.mem_cons_self _ _)))
      (fun y hy => hcomps y (List.mem_cons_of_mem _ hy)) c hc

theorem npFold_clean_id (k : Nat) (comps : List (List Char)) :
    (∀ c ∈ comps, CleanAbs c) →
      ∀ acc, comps.foldl (npStep k) acc = acc ++ comps := by
  induction comps with
  | nil => intro _ acc; simp
  | cons x rest ih =>
    intro hclean acc
    rw [List.foldl_cons]
    have hx := hclean x (List.mem_cons_self _ _)
    have hstep : npStep k acc x = acc ++ [x] := by
      rw [npStep, if_neg (by simp [hx.1, hx.2.1]), if_pos (Or.inl hx.2.2.1)]
    rw [hstep, ih (fun y hy => hclean y (List.mem_cons_of_mem _ hy)) (acc ++ [x]),
      List.append_assoc, List.singleton_append]

theorem npFold_skip_nil (k : Nat) (m : Nat) (comps : List (List Char))
    (acc : List (List Char)) :
    (List.replicate m [] ++ comps).foldl (npStep k) acc =
      comps.foldl (npStep k) acc := by
  induction m generalizing acc with
  | zero => simp
  | succ n ih =>
    rw [List.replicate_succ, List.cons_append, List.foldl_cons]
    rw [show npStep k acc [] = acc from by rw [npStep, if_pos (Or.inl rfl)]]
    exact ih acc

theorem splitSlash_replicate_append (k : Nat) (t : List Char) :
    splitSlash (List.replicate k '/' ++ t) =
      List.replicate k [] ++ splitSlash t := by
  induction k with
  | zero => simp
  | succ n ih =>
    rw [List.replicate_succ, List.cons_append]
    simp only [splitSlash, ih]
    rw [List.replicate_succ, List.cons_append]
    simp

theorem joinSlash_head (comps : List (List Char))
    (hclean : ∀ c ∈ comps, CleanAbs c) :
    joinSlash comps = [] ∨
      ∃ a t, joinSlash comps = a :: t ∧ a ≠ '/' := by
  cases comps with
  | nil => exact Or.inl rfl
  | cons c rest =>
    have hc := hclean c (List.mem_cons_self _ _)
    obtain ⟨a, c', rfl⟩ : ∃ a c', c = a :: c' := by
      cases c with
      | nil => cases hc.1 rfl
      | cons a c' => exact ⟨a, c', rfl⟩
    have ha : a ≠ '/' := fun h => hc.2.2.2 (h ▸ List.mem_cons_self _ _)
    right
    cases rest with
    | nil => exact ⟨a, c', by simp [joinSlash], ha⟩
    | cons d tl => exact ⟨a, c' ++ '/' :: joinSlash (d :: tl), by simp [joinSlash], ha⟩

theorem countInitSlashes_pos (s : List Char) (h : isabsChars s = true) :
    countInitSlashes s = 1 ∨ countInitSlashes s = 2 := by
  rw [isabsChars, decide_eq_true_eq] at h
  rw [countInitSlashes]
  split
  · exact Or.inr rfl
  · simp [h]

theorem countInitSlashes_rendered (k : Nat) (hk : k = 1 ∨ k = 2)
    (comps : List (List Char)) (hclean : ∀ c ∈ comps, CleanAbs c) :
    countInitSlashes (List.replicate k '/' ++ joinSlash comps) = k := by
  rcases joinSlash_head comps hclean with hj | ⟨a, t, hj, ha⟩ <;>
    rcases hk with rfl | rfl <;> rw [hj]
  · decide
  · decide
  · rw [countInitSlashes]
    rw [if_neg (by simp [List.replicate, ha]), if_pos (by simp [List.replicate])]
  · rw [countInitSlashes]
    rw [if_pos (by simp [List.replicate, ha])]

theorem normpath_abs_form (s : List Char) (habs : isabsChars s = true) :
    ∃ k comps, (k = 1 ∨ k = 2) ∧ (∀ c ∈ comps, CleanAbs c) ∧
      normpathChars s = List.replicate k '/' ++ joinSlash comps := by
  have hsne : ¬ s = [] := by
    intro h
    rw [h] at habs
    simp [isabsChars] at habs
  have hk := countInitSlashes_pos s habs
  have hkne : countInitSlashes s ≠ 0 := by
    rcases hk with h | h <;> simp [h]
  refine ⟨countInitSlashes s,
    (splitSlash s).foldl (npStep (countInitSlashes s)) [], hk,
    npFold_clean _ hkne _ [] (by simp) (splitSlash_no_slash s), ?_⟩
  have hne2 : ¬ (List.replicate (countInitSlashes s) '/' ++
      joinSlash ((splitSlash s).foldl (npStep (countInitSlashes s)) [])) = [] := by
    intro h
    have h1 := (List.append_eq_nil.1 h).1
    rw [List.replicate_eq_nil_iff] at h1
    exact hkne h1
  simp only [normpathChars]
  rw [if_neg hsne, if_neg hne2]

theorem normpath_rendered_fixed (k : Nat) (hk : k = 1 ∨ k = 2)
    (comps : List (List Char)) (hclean : ∀ c ∈ comps, CleanAbs c) :
    normpathChars (List.replicate k '/' ++ joinSlash comps) =
      List.replicate k '/' ++ joinSlash comps := by
  have hkne : k ≠ 0 := by rcases hk with rfl | rfl <;> simp
  have hne2 : ¬ (List.replicate k '/' ++ joinSlash comps) = [] := by
    intro h
    have h1 := (List.append_eq_nil.1 h).1
    rw [List.replicate_eq_nil_iff] at h1
    exact hkne h1
  simp only [normpathChars]
  rw [if_neg hne2, countInitSlashes_rendered k hk comps hclean,
    splitSlash_replicate_append, npFold_skip_nil]
  by_cases hc0 : comps = []
  · subst hc0
    simp only [joinSlash]
    have hne3 : ¬ (List.replicate k '/' ++ ([] : List Char)) = [] := by
      simp only [List.append_nil]
      intro hcontra
      rw [List.replicate_eq_nil_iff] at hcontra
      exact hkne hcontra
    rw [if_neg hne3]
  · rw [splitSlash_join comps hc0 (fun c hc => (hclean c hc).2.2.2),
      npFold_clean_id k comps hclean [], List.nil_append, if_neg hne2]

theorem normpath_idem_abs (s : List Char) (habs : isabsChars s = true) :
    normpathChars (normpathChars s) = normpathChars s := by
  obtain ⟨k, comps, hk, hclean, hform⟩ := normpath_abs_form s habs
  rw [hform]
  exact normpath_rendered_fixed k hk comps hclean

theorem isabs_normpath (s : List Char) (habs : isabsChars s = true) :
    isabsChars (normpathChars s) = true := by
  obtain ⟨k, comps, hk, _, hform⟩ := normpath_abs_form s habs
  rw [hform]
  rcases hk with rfl | rfl <;> simp [isabsChars, List.replicate]

theorem isabs_append (a b : List Char) (ha : a ≠ []) :
    isabsChars (a ++ b) = isabsChars a := by
  cases a with
  | nil => cases ha rfl
  | cons x t => simp [isabsChars, List.take_succ_cons]

theorem isabs_join (cwd s : List Char) (h : isabsChars cwd = true) :
    isabsChars (joinPathChars cwd s) = true := by
  have hcwdne : cwd ≠ [] := by
    intro hh
    rw [hh] at h
    simp [isabsChars] at h
  rw [joinPathChars]
  split
  · assumption
  · split
    · rw [isabs_append cwd s hcwdne]
      exact h
    · rw [isabs_append cwd ('/' :: s) hcwdne]
      exact h

/-- C10.  `normalize_path` is idempotent and always returns an absolute
path, for every path string — existing on the filesystem or not — given
that the working directory (as `os.getcwd` guarantees) is absolute. -/
theorem normalize_path_idem_abs (cwd p : List Char)
    (hcwd : isabsChars cwd = true) :
    normalize_path cwd (normalize_path cwd p) = normalize_path cwd p ∧
    isabsChars (normalize_path cwd p) = true := by
  obtain ⟨t, ht, heq⟩ :
      ∃ t, isabsChars t = true ∧ abspathChars cwd p = normpathChars t := by
    rw [abspathChars]
    by_cases hp : isabsChars p = true
    · exact ⟨p, hp, by rw [if_pos hp]⟩
    · exact ⟨joinPathChars cwd p, isabs_join cwd p hcwd, by rw [if_neg hp]⟩
  have hq_eq : normalize_path cwd p = normpathChars t := by
    rw [normalize_path, heq, normpath_idem_abs t ht]
  have hqabs : isabsChars (normalize_path cwd p) = true := by
    rw [hq_eq]
    exact isabs_normpath t ht
  refine ⟨?_, hqabs⟩
  rw [normalize_path, abspathChars, if_pos hqabs, hq_eq,
    normpath_idem_abs t ht, normpath_idem_abs t ht]

/-- Witness for C10 at a concrete working directory and relative path. -/
theorem normalize_path_idem_abs_witness :
    isabsChars "/r".data = true ∧
    (normalize_path "/r".data (normalize_path "/r".data "a/.//b/../c".data) =
        normalize_path "/r".data "a/.//b/../c".data ∧
      isabsChars (normalize_path "/r".data "a/.//b/../c".data) = true) :=
  ⟨by decide, normalize_path_idem_abs "/r".data "a/.//b/../c".data (by decide)⟩

end QiLife
